import Mathlib

/-!
Verification development for the Anki deck packager service
(`api/build_apkg.py`, `api/download.py`, `api/index.py`).

The Python sources are shallowly embedded as executable Lean definitions:

* strings are Lean `String`s (lists of characters); Python `str.lower()` and
  the regex character class `\d` are modelled at ASCII precision
  (`Char.toLower`, `Char.isDigit`), which is exact on all ASCII input;
* a pydantic optional field is an `Option String`, where `none` models a
  field that was not supplied (pydantic validators declared with
  `always=False` are skipped for unsupplied fields, so the embedded
  validators pattern-match on the option);
* `re.findall` counting is embedded as a left-to-right scanner that consumes
  each non-overlapping match (for the pattern `{{c\d+::` matches can never
  overlap, so this coincides with `findall` semantics); the scanner carries
  a fuel argument, initialised with the input length, so that it is
  structurally recursive — the fuel is always sufficient because every step
  consumes at least one character;
* `re.sub(pattern+, repl, s)` over a negated character class is embedded as
  a scanner that replaces every maximal run of non-matching characters by a
  single replacement character;
* SHA-256 (`hashlib.sha256(...).hexdigest()`) is embedded in full over
  `Nat` with explicit reduction modulo `2 ^ 32`.
-/

/-! ## Tag normalization (`kebab` / `normalize_tags`) -/

/-- Characters kept verbatim by `kebab`: the class `[a-z0-9]` of the regex
`re.sub(r"[^a-z0-9]+", "-", s)`. -/
def isKebabChar (c : Char) : Bool :=
  (97 ≤ c.toNat && c.toNat ≤ 122) || (48 ≤ c.toNat && c.toNat ≤ 57)

/-- Run-replacement scanner for `re.sub(r"[^a-z0-9]+", "-", s)`.  The flag
records whether the scanner is inside a run of characters outside the
class: the first character of each run produces the single `'-'`, the rest
of the run is dropped. -/
def subRun (inRun : Bool) : List Char → List Char
  | [] => []
  | c :: cs =>
    if isKebabChar c then c :: subRun false cs
    else if inRun then subRun true cs
    else '-' :: subRun true cs

/-- Embedding of `re.sub(r"[^a-z0-9]+", "-", s)`: every maximal run of
characters outside `[a-z0-9]` becomes a single hyphen. -/
def subHyphen (l : List Char) : List Char :=
  subRun false l

/-- Removal of a trailing run of hyphens (the right half of
Python's `str.strip("-")`). -/
def dropTrailingHyphens : List Char → List Char
  | [] => []
  | c :: cs =>
    match dropTrailingHyphens cs with
    | [] => if c == '-' then [] else [c]
    | d :: ds => c :: d :: ds

/-- Embedding of Python's `str.strip("-")`: drop leading and trailing runs
of hyphens. -/
def stripHyphens (l : List Char) : List Char :=
  dropTrailingHyphens (l.dropWhile (fun c => c == '-'))

/-- Character-list form of `kebab` from `api/build_apkg.py`:
`s.lower()`, then collapse runs of non-`[a-z0-9]` to `-`, then strip
hyphens at both ends. -/
def kebabL (l : List Char) : List Char :=
  stripHyphens (subHyphen (l.map Char.toLower))

/-- `kebab` from `api/build_apkg.py` (and `api/index.py`). -/
def kebab (s : String) : String :=
  String.mk (kebabL s.data)

/-- Character-list form of the per-tag transform inside `normalize_tags`:
if the tag contains a colon, split at the first colon, keep the key and
kebab the value (`f"{k}:{kebab(v)}"`); otherwise kebab the whole tag. -/
def normTagL (l : List Char) : List Char :=
  if l.any (fun c => c == ':') then
    l.takeWhile (fun c => c != ':') ++
      ':' :: kebabL ((l.dropWhile (fun c => c != ':')).tail)
  else
    kebabL l

/-- The per-tag transform of `normalize_tags`, on strings. -/
def normTag (t : String) : String :=
  String.mk (normTagL t.data)

/-- The accumulation loop of `normalize_tags`
(`for t in (tags or []): out.append(...)`). -/
def normTagsGo : List String → List String
  | [] => []
  | t :: ts => normTag t :: normTagsGo ts

/-- `normalize_tags` from `api/build_apkg.py`: `tags or []` turns an
unsupplied tag list into `[]`, then each tag is transformed independently. -/
def normalize_tags (tags : Option (List String)) : List String :=
  normTagsGo (tags.getD [])

/-! ## Cloze marker scanning (`re.findall(r"{{c\d+::", v)`) -/

/-- Attempt to match the regex `{{c\d+::` at the head of the list.  On
success, return the digit run of the marker together with the remainder of
the input after the match.  (`\d+` is greedy; since a digit run followed by
anything other than `::` admits no shorter successful match, greedy
matching coincides with taking the maximal digit run.) -/
def matchClozeAt : List Char → Option (List Char × List Char)
  | '{' :: '{' :: 'c' :: rest =>
    let ds := rest.takeWhile Char.isDigit
    match rest.dropWhile Char.isDigit with
    | ':' :: ':' :: r => if ds.isEmpty then none else some (ds, r)
    | _ => none
  | _ => none

/-- Fuelled scanner for `re.findall(r"{{c\d+::", v)`: scan left to right,
consuming each non-overlapping match.  Every step consumes at least one
character, so fuel equal to the input length never runs out. -/
def clozeCountF : Nat → List Char → Nat
  | 0, _ => 0
  | _, [] => 0
  | fuel + 1, c :: cs =>
    match matchClozeAt (c :: cs) with
    | some (_, r) => 1 + clozeCountF fuel r
    | none => clozeCountF fuel cs

/-- The number of matches found by `re.findall(r"{{c\d+::", v)`. -/
def clozeCount (l : List Char) : Nat :=
  clozeCountF l.length l

/-- The list of markers (identified by their digit runs) found by the same
scan, in order of occurrence. -/
def clozeMarkersF : Nat → List Char → List (List Char)
  | 0, _ => []
  | _, [] => []
  | fuel + 1, c :: cs =>
    match matchClozeAt (c :: cs) with
    | some (ds, r) => ds :: clozeMarkersF fuel r
    | none => clozeMarkersF fuel cs

/-- The markers occurring in a text, in order of occurrence. -/
def clozeMarkers (l : List Char) : List (List Char) :=
  clozeMarkersF l.length l

/-- Follows the spec's words, for comparison with the implementation: the
number of DISTINCT cloze-deletion markers occurring in the text (two
occurrences of `\x7b\x7bc1::` are the same marker). -/
def distinctClozeCount (l : List Char) : Nat :=
  (clozeMarkers l).dedup.length

/-! ## Cards and validation -/

/-- The `NoteType` literal of the sources. -/
inductive NoteType
  | basic
  | basicReverse
  | cloze
deriving DecidableEq, Repr

/-- The pydantic `Card` model.  A field value `none` models a field that
was not supplied in the request. -/
structure Card where
  note_type : NoteType
  front : Option String := none
  back : Option String := none
  text : Option String := none
  tags : Option (List String) := none
deriving DecidableEq, Repr

/-- The validation failures the `Card` validators can raise, per the spec's
error taxonomy (`MissingField`, `TooManyClozeDeletions` with the observed
count). -/
inductive CardError
  | missingField (field : String)
  | tooManyClozeDeletions (count : Nat)
deriving DecidableEq, Repr

/-- Validator `v_front`: declared with `always=False`, so it is skipped
when `front` was not supplied; for a supplied value it fails when
`note_type` is Basic or Basic (and reverse) and the value is falsy. -/
def v_front (c : Card) : Option CardError :=
  match c.front with
  | none => none
  | some v =>
    if (c.note_type = .basic ∨ c.note_type = .basicReverse) ∧ v = "" then
      some (.missingField "front")
    else none

/-- Validator `v_back`, same shape as `v_front`. -/
def v_back (c : Card) : Option CardError :=
  match c.back with
  | none => none
  | some v =>
    if (c.note_type = .basic ∨ c.note_type = .basicReverse) ∧ v = "" then
      some (.missingField "back")
    else none

/-- Validator `v_text`: skipped when `text` was not supplied; for a
supplied value it fails when `note_type` is Cloze and the value is falsy,
and otherwise, for a non-empty value, fails when the number of
`\x7b\x7bc\d+::` matches exceeds 2, carrying that match count. -/
def v_text (c : Card) : Option CardError :=
  match c.text with
  | none => none
  | some v =>
    if c.note_type = .cloze ∧ v = "" then
      some (.missingField "text")
    else if v ≠ "" ∧ clozeCount v.data > 2 then
      some (.tooManyClozeDeletions (clozeCount v.data))
    else none

/-- Pydantic runs every field validator and collects all failures, in field
declaration order (`front`, `back`, `text`); `[]` means the card is
accepted. -/
def validate (c : Card) : List CardError :=
  (v_front c).toList ++ (v_back c).toList ++ (v_text c).toList

example : clozeCount "{{c1::a}} {{c2::b}} {{c3::c}}".data = 3 := by decide
example : clozeCount "{{c1::a}} {{c1::b}} {{c1::c}}".data = 3 := by decide
example : distinctClozeCount "{{c1::a}} {{c1::b}} {{c1::c}}".data = 1 := by decide
example : clozeCount "{{c12::x}} y".data = 1 := by decide
example : clozeCount "{{c::x}} {{d1::y}} {{c1:z}}".data = 0 := by decide
example : kebab "My Topic" = "my-topic" := by decide
example : kebab "  --Weird__tag!!  " = "weird-tag" := by decide
example : normTag "Source:My Topic" = "Source:my-topic" := by decide
example : normTag "a:b:c" = "a:b-c" := by decide
example : normTag "" = "" := by decide
example : validate { note_type := .basic, back := some "A" } = [] := by decide
example : validate { note_type := .basic, front := some "", back := some "A" } =
    [.missingField "front"] := by decide

/-! ## SHA-256 (`hashlib.sha256(name.encode("utf-8")).hexdigest()`) -/

/-- UTF-8 encoding of one character (as byte values). -/
def utf8EncodeChar (c : Char) : List Nat :=
  let n := c.toNat
  if n < 128 then [n]
  else if n < 2048 then
    [192 + n / 64, 128 + n % 64]
  else if n < 65536 then
    [224 + n / 4096, 128 + n / 64 % 64, 128 + n % 64]
  else
    [240 + n / 262144, 128 + n / 4096 % 64, 128 + n / 64 % 64, 128 + n % 64]

/-- `name.encode("utf-8")` as a list of byte values. -/
def utf8Encode (s : String) : List Nat :=
  (s.data.map utf8EncodeChar).flatten

def pow32 : Nat := 4294967296

/-- Right rotation of a 32-bit word. -/
def rotr32 (n x : Nat) : Nat :=
  ((x >>> n) ||| (x <<< (32 - n))) % pow32

def bigSigma0 (x : Nat) : Nat := rotr32 2 x ^^^ rotr32 13 x ^^^ rotr32 22 x
def bigSigma1 (x : Nat) : Nat := rotr32 6 x ^^^ rotr32 11 x ^^^ rotr32 25 x
def smallSigma0 (x : Nat) : Nat := rotr32 7 x ^^^ rotr32 18 x ^^^ (x >>> 3)
def smallSigma1 (x : Nat) : Nat := rotr32 17 x ^^^ rotr32 19 x ^^^ (x >>> 10)
def chFn (x y z : Nat) : Nat := (x &&& y) ^^^ ((x ^^^ 4294967295) &&& z)
def majFn (x y z : Nat) : Nat := (x &&& y) ^^^ (x &&& z) ^^^ (y &&& z)

/-- The SHA-256 round constants (first 32 bits of the fractional parts of
the cube roots of the first 64 primes). -/
def K256 : List Nat :=
  [1116352408, 1899447441, 3049323471, 3921009573, 961987163, 1508970993,
   2453635748, 2870763221, 3624381080, 310598401, 607225278, 1426881987,
   1925078388, 2162078206, 2614888103, 3248222580, 3835390401, 4022224774,
   264347078, 604807628, 770255983, 1249150122, 1555081692, 1996064986,
   2554220882, 2821834349, 2952996808, 3210313671, 3336571891, 3584528711,
   113926993, 338241895, 666307205, 773529912, 1294757372, 1396182291,
   1695183700, 1986661051, 2177026350, 2456956037, 2730485921, 2820302411,
   3259730800, 3345764771, 3516065817, 3600352804, 4094571909, 275423344,
   430227734, 506948616, 659060556, 883997877, 958139571, 1322822218,
   1537002063, 1747873779, 1955562222, 2024104815, 2227730452, 2361852424,
   2428436474, 2756734187, 3204031479, 3329325298]

/-- The eight 32-bit working variables of the compression function. -/
structure Hash8 where
  a : Nat
  b : Nat
  c : Nat
  d : Nat
  e : Nat
  f : Nat
  g : Nat
  h : Nat
deriving Repr, DecidableEq

/-- The SHA-256 initial hash value. -/
def sha256H0 : Hash8 :=
  ⟨1779033703, 3144134277, 1013904242, 2773480762, 1359893119, 2600822924,
   528734635, 1541459225⟩

/-- One round of the SHA-256 compression function. -/
def roundFn (s : Hash8) (kw : Nat × Nat) : Hash8 :=
  let t1 := (s.h + bigSigma1 s.e + chFn s.e s.f s.g + kw.1 + kw.2) % pow32
  let t2 := (bigSigma0 s.a + majFn s.a s.b s.c) % pow32
  ⟨(t1 + t2) % pow32, s.a, s.b, s.c, (s.d + t1) % pow32, s.e, s.f, s.g⟩

/-- Big-endian assembly of 4-byte groups into 32-bit words. -/
def toWords : List Nat → List Nat
  | b0 :: b1 :: b2 :: b3 :: rest => (((b0 * 256 + b1) * 256 + b2) * 256 + b3) :: toWords rest
  | _ => []

/-- Extension of the 16 message-block words to the 64-word schedule. -/
def extendSchedule : Nat → List Nat → List Nat
  | 0, w => w
  | n + 1, w =>
    extendSchedule n (w ++
      [(smallSigma1 (w.getD (w.length - 2) 0) + w.getD (w.length - 7) 0 +
        smallSigma0 (w.getD (w.length - 15) 0) + w.getD (w.length - 16) 0) % pow32])

/-- Pointwise 32-bit addition of two hash states. -/
def addState (x y : Hash8) : Hash8 :=
  ⟨(x.a + y.a) % pow32, (x.b + y.b) % pow32, (x.c + y.c) % pow32,
   (x.d + y.d) % pow32, (x.e + y.e) % pow32, (x.f + y.f) % pow32,
   (x.g + y.g) % pow32, (x.h + y.h) % pow32⟩

/-- Compression of one 64-byte block into the running hash state. -/
def compressBlock (s : Hash8) (block : List Nat) : Hash8 :=
  let w := extendSchedule 48 (toWords block)
  addState s ((K256.zip w).foldl roundFn s)

/-- SHA-256 padding: append `0x80`, zeros to 56 mod 64, and the bit length
as an 8-byte big-endian integer. -/
def padMsg (m : List Nat) : List Nat :=
  let len := m.length
  let zeros := (119 - len % 64) % 64
  let bits := 8 * len
  m ++ 128 :: List.replicate zeros 0 ++
    [bits >>> 56 % 256, bits >>> 48 % 256, bits >>> 40 % 256,
     bits >>> 32 % 256, bits >>> 24 % 256, bits >>> 16 % 256,
     bits >>> 8 % 256, bits % 256]

/-- Fuelled split into 64-byte blocks (fuel equal to the input length is
always sufficient since every step consumes at least one element). -/
def chunks64F : Nat → List Nat → List (List Nat)
  | 0, _ => []
  | _, [] => []
  | fuel + 1, x :: l => ((x :: l).take 64) :: chunks64F fuel ((x :: l).drop 64)

def chunks64 (l : List Nat) : List (List Nat) :=
  chunks64F l.length l

/-- The big-endian bytes of a 32-bit word. -/
def wordBytes (w : Nat) : List Nat :=
  [w >>> 24 % 256, w >>> 16 % 256, w >>> 8 % 256, w % 256]

/-- The 32 digest bytes of a final hash state. -/
def digestBytes (s : Hash8) : List Nat :=
  wordBytes s.a ++ wordBytes s.b ++ wordBytes s.c ++ wordBytes s.d ++
    wordBytes s.e ++ wordBytes s.f ++ wordBytes s.g ++ wordBytes s.h

/-- SHA-256 of a byte sequence, as the 32 digest bytes. -/
def sha256 (msg : List Nat) : List Nat :=
  digestBytes ((chunks64 (padMsg msg)).foldl compressBlock sha256H0)

/-- The lowercase hex character of a nibble. -/
def hexNibble (n : Nat) : Char :=
  if n < 10 then Char.ofNat (48 + n) else Char.ofNat (87 + n)

/-- The two hex characters of a byte. -/
def hexPair (b : Nat) : List Char := [hexNibble (b / 16), hexNibble (b % 16)]

/-- `hashlib.sha256(msg).hexdigest()` as a character list. -/
def sha256Hex (msg : List Nat) : List Char :=
  ((sha256 msg).map hexPair).flatten

/-- The digit value of a hex character (`0` on non-hex input, which never
arises from a digest). -/
def hexVal (c : Char) : Nat :=
  if 48 ≤ c.toNat ∧ c.toNat ≤ 57 then c.toNat - 48
  else if 97 ≤ c.toNat ∧ c.toNat ≤ 102 then c.toNat - 87
  else 0

/-- `int(s, 16)` on a (lowercase) hex string. -/
def parseHex16 (l : List Char) : Nat :=
  l.foldl (fun acc c => 16 * acc + hexVal c) 0

example : sha256Hex (utf8Encode "a") =
    "ca978112ca1bbdcafac231b39a23dc4da786eff8147c4e72b9807785afee48bb".data := by decide

/-! ## Package building (`build_apkg_bytes` / `build_apkg`) -/

def BASIC_MODEL_ID : Nat := 1607392319
def REVERSE_MODEL_ID : Nat := BASIC_MODEL_ID + 1
def CLOZE_MODEL_ID : Nat := 998877665

/-- A `genanki.Note` as constructed by the builder: the numeric id of the
model it is bound to, the positional field values (passed through exactly
as they sit in the card), and the normalized tags. -/
structure Note where
  model_id : Nat
  fields : List (Option String)
  tags : List String
deriving DecidableEq, Repr

/-- The note constructed for one card in the builder's loop: the template
is selected by `note_type`, fields are bound positionally, tags are
normalized. -/
def mkNote (c : Card) : Note :=
  match c.note_type with
  | .basic => ⟨BASIC_MODEL_ID, [c.front, c.back], normalize_tags c.tags⟩
  | .basicReverse => ⟨REVERSE_MODEL_ID, [c.front, c.back], normalize_tags c.tags⟩
  | .cloze => ⟨CLOZE_MODEL_ID, [c.text], normalize_tags c.tags⟩

/-- The builder's loop: `for c in cards: deck.add_note(note)` appends notes
in input order. -/
def addNotes (cards : List Card) : List Note :=
  cards.foldl (fun notes c => notes ++ [mkNote c]) []

/-- The deck content assembled by `build_apkg_bytes`: the derived deck id
(`int(hashlib.sha256(deck_name.encode("utf-8")).hexdigest()[:12], 16)`),
the deck name, and the notes in insertion order. -/
structure DeckData where
  deck_id : Nat
  name : String
  notes : List Note
deriving DecidableEq, Repr

/-- `build_apkg_bytes` from `api/build_apkg.py` (identically `build_apkg`
from `api/index.py`), up to the final genanki serialization. -/
def build_apkg_bytes (deck_name : String) (cards : List Card) : DeckData :=
  { deck_id := parseHex16 ((sha256Hex (utf8Encode deck_name)).take 12),
    name := deck_name,
    notes := addNotes cards }

/-- Big-endian integer value of a byte sequence. -/
def natBE (bs : List Nat) : Nat :=
  bs.foldl (fun acc b => 256 * acc + b) 0

/-! ## Download handlers and suggested filenames -/

/-- The characters kept by `re.sub(r"[^a-zA-Z0-9._-]+", "_", ...)`. -/
def isSafeChar (c : Char) : Bool :=
  (97 ≤ c.toNat && c.toNat ≤ 122) || (65 ≤ c.toNat && c.toNat ≤ 90) ||
    (48 ≤ c.toNat && c.toNat ≤ 57) || c == '.' || c == '_' || c == '-'

/-- Run-replacement scanner for `re.sub(r"[^a-zA-Z0-9._-]+", "_", s)`, same
shape as `subRun`. -/
def safeRun (inRun : Bool) : List Char → List Char
  | [] => []
  | c :: cs =>
    if isSafeChar c then c :: safeRun false cs
    else if inRun then safeRun true cs
    else '_' :: safeRun true cs

/-- Embedding of `re.sub(r"[^a-zA-Z0-9._-]+", "_", s)`: every maximal run
of characters outside the class becomes a single underscore. -/
def subUnderscore (l : List Char) : List Char :=
  safeRun false l

/-- The suggested filename computed by both download handlers:
`re.sub(r"[^a-zA-Z0-9._-]+", "_", f"{name}.apkg") or "deck.apkg"`, applied
to the already-formatted name string. -/
def safeFilename (name : String) : String :=
  let r := String.mk (subUnderscore (name ++ ".apkg").data)
  if r = "" then "deck.apkg" else r

/-- Follows the claim's words, for comparison with the implementation:
every INDIVIDUAL character of the deck name outside `[A-Za-z0-9._-]` is
replaced by one underscore (a run of k disallowed characters yields k
underscores), `.apkg` is appended, and an empty result falls back to
`deck.apkg`. -/
def perCharFilename (name : String) : String :=
  let r := String.mk (name.data.map (fun c => if isSafeChar c then c else '_')) ++ ".apkg"
  if r = "" then "deck.apkg" else r

/-- A JSON field of the decoded payload: absent, null, or a string. -/
inductive JsonField
  | absent
  | null
  | str (s : String)
deriving DecidableEq, Repr

/-- Pydantic parsing of `BuildPayload.deck_name`
(`Optional[str] = "Learning AI"`): the default applies only when the field
is absent; an explicit JSON null yields `None`. -/
def payloadDeckName : JsonField → Option String
  | .absent => some "Learning AI"
  | .null => none
  | .str s => some s

/-- A Python f-string interpolation of an optional string: `None` prints
as `"None"`. -/
def pyFormatOpt : Option String → String
  | none => "None"
  | some s => s

/-- Python `x or y` for an optional string `x`: `None` and `""` are falsy
and fall back to `y`. -/
def orElseStr (x : Option String) (y : String) : String :=
  match x with
  | none => y
  | some s => if s = "" then y else s

/-- What a download handler feeds into the build and into the
`Content-Disposition` header: the effective deck name passed to the builder
(from which the deck id is derived) and the suggested filename. -/
structure DownloadResult where
  build_name : String
  filename : String
deriving DecidableEq, Repr

/-- The `download` handler of `api/download.py`: the build uses
`bp.deck_name or "Learning AI"`, but the filename is formatted from
`bp.deck_name` itself, without the fallback. -/
def download_py (deck_name_field : JsonField) : DownloadResult :=
  let bp := payloadDeckName deck_name_field
  { build_name := orElseStr bp "Learning AI",
    filename := safeFilename (pyFormatOpt bp) }

/-- The `download` handler of `api/index.py`:
`deck_name = data.get("deck_name") or "Learning AI"` (`get` yields `None`
for an absent or null field), and the same effective name is used for the
build and for the filename. -/
def index_download (deck_name_field : JsonField) : DownloadResult :=
  let g : Option String :=
    match deck_name_field with
    | .absent => none
    | .null => none
    | .str s => some s
  let deck_name := orElseStr g "Learning AI"
  { build_name := deck_name, filename := safeFilename deck_name }

example : safeFilename "Learning AI" = "Learning_AI.apkg" := by decide
example : safeFilename "a  b" = "a_b.apkg" := by decide
example : perCharFilename "a  b" = "a__b.apkg" := by decide
example : (download_py (.str "")).filename = ".apkg" := by decide
example : (download_py (.str "")).build_name = "Learning AI" := by decide
example : (download_py .absent).filename = "Learning_AI.apkg" := by decide
example : (download_py .null).filename = "None.apkg" := by decide
example : (index_download (.str "")).filename = "Learning_AI.apkg" := by decide

/-! ## Claims about validation (C1, C2, C10) -/

/-- Claim C1 is false as stated: the code counts OCCURRENCES of the marker
pattern, not distinct markers.  At the concrete Cloze text
`"\x7b\x7bc1::a\x7d\x7d \x7b\x7bc1::b\x7d\x7d \x7b\x7bc1::c\x7d\x7d"` there
is exactly 1 distinct marker, yet validation fails, with the error carrying
the occurrence count 3 — refuting "fails iff the number of distinct markers
exceeds 2". -/
theorem cloze_distinct_claim_false :
    ¬ ((∃ n, CardError.tooManyClozeDeletions n ∈
          validate { note_type := .cloze,
                     text := some "{{c1::a}} {{c1::b}} {{c1::c}}" }) ↔
        distinctClozeCount "{{c1::a}} {{c1::b}} {{c1::c}}".data > 2) := by
  intro h
  have h1 : distinctClozeCount "{{c1::a}} {{c1::b}} {{c1::c}}".data > 2 :=
    h.mp ⟨3, by decide⟩
  exact absurd h1 (by decide)

/-- Claim C1 (amended): for every Cloze card whose text is present and
non-empty, validation fails with `TooManyClozeDeletions` if and only if the
number of OCCURRENCES of the marker pattern (counting repeats of the same
marker) exceeds 2, and the error carries that occurrence count. -/
theorem v_text_some (c : Card) (t : String) (ht : c.text = some t) :
    v_text c =
      if c.note_type = .cloze ∧ t = "" then some (.missingField "text")
      else if t ≠ "" ∧ clozeCount t.data > 2 then
        some (.tooManyClozeDeletions (clozeCount t.data))
      else none := by
  unfold v_text
  rw [ht]

theorem v_front_not_basic (c : Card) (hnt : c.note_type = .cloze) :
    v_front c = none := by
  unfold v_front
  cases hc : c.front with
  | none => rfl
  | some v => simp [hnt]

theorem v_back_not_basic (c : Card) (hnt : c.note_type = .cloze) :
    v_back c = none := by
  unfold v_back
  cases hc : c.back with
  | none => rfl
  | some v => simp [hnt]

theorem cloze_limit_counts_occurrences (c : Card) (t : String)
    (hnt : c.note_type = .cloze) (ht : c.text = some t) (hne : t ≠ "") :
    ((∃ n, CardError.tooManyClozeDeletions n ∈ validate c) ↔
      clozeCount t.data > 2) ∧
    (∀ n, CardError.tooManyClozeDeletions n ∈ validate c →
      n = clozeCount t.data) := by
  have hv : validate c =
      if clozeCount t.data > 2
      then [CardError.tooManyClozeDeletions (clozeCount t.data)] else [] := by
    unfold validate
    rw [v_front_not_basic c hnt, v_back_not_basic c hnt, v_text_some c t ht]
    rw [if_neg (fun hh => hne hh.2)]
    by_cases hc : clozeCount t.data > 2
    · rw [if_pos ⟨hne, hc⟩, if_pos hc]
      rfl
    · rw [if_neg (fun hh => hc hh.2), if_neg hc]
      rfl
  rw [hv]
  by_cases hc : clozeCount t.data > 2
  · rw [if_pos hc]
    refine ⟨⟨fun _ => hc, fun _ => ⟨clozeCount t.data, by simp⟩⟩, ?_⟩
    intro n hn
    simp at hn
    omega
  · rw [if_neg hc]
    exact ⟨⟨fun hex => absurd hex.choose_spec (by simp), fun hh => absurd hh hc⟩,
      fun n hn => absurd hn (by simp)⟩

/-- Witness for `cloze_limit_counts_occurrences` at a concrete Cloze card
with three distinct markers. -/
theorem cloze_limit_counts_occurrences_witness :
    (∃ n, CardError.tooManyClozeDeletions n ∈
        validate { note_type := .cloze,
                   text := some "{{c1::a}} {{c2::b}} {{c3::c}} x" }) ↔
      clozeCount "{{c1::a}} {{c2::b}} {{c3::c}} x".data > 2 :=
  (cloze_limit_counts_occurrences _ _ rfl rfl (by decide)).1

/-- Claim C2: the claim says an absent required field is rejected exactly
like an empty string, but the validators are declared with `always=False`
and are skipped for unsupplied fields, so a Basic card without `front` and
a Cloze card without `text` are ACCEPTED, while the same cards with the
field supplied as `""` are rejected with `MissingField`. -/
theorem absent_required_fields_accepted :
    validate { note_type := .basic, back := some "A" } = [] ∧
    validate { note_type := .cloze } = [] ∧
    validate { note_type := .basic, front := some "", back := some "A" } =
      [CardError.missingField "front"] ∧
    validate { note_type := .cloze, text := some "" } =
      [CardError.missingField "text"] := by
  refine ⟨by decide, by decide, by decide, by decide⟩

/-- Claim C10: the cloze-marker limit is enforced on any card whose `text`
is supplied and non-empty, regardless of `note_type`: if the text has more
than 2 marker-pattern matches, validation rejects the card. -/
theorem cloze_limit_any_note_type (c : Card) (t : String)
    (ht : c.text = some t) (hne : t ≠ "") (hcnt : clozeCount t.data > 2) :
    CardError.tooManyClozeDeletions (clozeCount t.data) ∈ validate c := by
  have hvt : v_text c =
      some (.tooManyClozeDeletions (clozeCount t.data)) := by
    rw [v_text_some c t ht]
    rw [if_neg (fun hh => hne hh.2), if_pos ⟨hne, hcnt⟩]
  simp [validate, hvt]

/-- Witness for `cloze_limit_any_note_type`: a BASIC card carrying an
over-limit cloze text is rejected. -/
theorem cloze_limit_any_note_type_witness :
    CardError.tooManyClozeDeletions
        (clozeCount "{{c1::a}} {{c2::b}} {{c3::c}}".data) ∈
      validate { note_type := .basic, front := some "Q", back := some "A",
                 text := some "{{c1::a}} {{c2::b}} {{c3::c}}" } :=
  cloze_limit_any_note_type _ _ rfl (by decide) (by decide)

/-! ## Claims about deck building (C4) and tag normalization (C5) -/

theorem addNotes_eq_map_go (cards : List Card) (acc : List Note) :
    cards.foldl (fun notes c => notes ++ [mkNote c]) acc =
      acc ++ cards.map mkNote := by
  induction cards generalizing acc with
  | nil => simp
  | cons c cs ih => simp [List.foldl_cons, ih]

theorem addNotes_eq_map (cards : List Card) :
    addNotes cards = cards.map mkNote := by
  simpa [addNotes] using addNotes_eq_map_go cards []

/-- Claim C4: building from N valid cards yields exactly N notes, in input
order; the i-th note is bound to the model id fixed by the i-th card's
note type (Basic 1607392319, Basic (and reverse) 1607392320, Cloze
998877665), its field values are bound positionally and passed through
unchanged, and its tags are the normalized input tags. -/
theorem build_notes_roundtrip (deck_name : String) (cards : List Card)
    (hval : ∀ c ∈ cards, validate c = []) :
    (build_apkg_bytes deck_name cards).notes.length = cards.length ∧
    ∀ (i : Nat) (c : Card), cards[i]? = some c →
      (build_apkg_bytes deck_name cards).notes[i]? =
        some (Note.mk
          (match c.note_type with
           | .basic => 1607392319
           | .basicReverse => 1607392320
           | .cloze => 998877665)
          (match c.note_type with
           | .cloze => [c.text]
           | _ => [c.front, c.back])
          (normalize_tags c.tags)) := by
  have hmap : (build_apkg_bytes deck_name cards).notes = cards.map mkNote := by
    simp [build_apkg_bytes, addNotes_eq_map]
  constructor
  · rw [hmap, List.length_map]
  · intro i c hc
    rw [hmap, List.getElem?_map, hc]
    cases hnt : c.note_type <;>
      simp [mkNote, hnt, BASIC_MODEL_ID, REVERSE_MODEL_ID, CLOZE_MODEL_ID]

/-- Witness for `build_notes_roundtrip` on a two-card deck. -/
theorem build_notes_roundtrip_witness :
    (build_apkg_bytes "My Deck"
        [{ note_type := .basic, front := some "Q", back := some "A",
           tags := some ["Source:My Topic"] },
         { note_type := .cloze, text := some "{{c1::x}}" }]).notes.length = 2 :=
  (build_notes_roundtrip "My Deck" _ (by decide)).1

/-- Claim C5: tag normalization maps each tag independently, preserving
length, order and duplicates; a tag with a colon keeps its key unchanged
and kebabs the value after the first colon; a tag without a colon is
kebabbed as a whole; the empty tag normalizes to the empty string and is
kept. -/
theorem normalize_tags_pointwise (tags : List String) :
    normalize_tags (some tags) = tags.map normTag ∧
    (normalize_tags (some tags)).length = tags.length ∧
    normTag "" = "" ∧
    (∀ t : String, t.data.any (fun c => c == ':') = false →
      normTag t = kebab t) ∧
    (∀ t : String, t.data.any (fun c => c == ':') = true →
      normTag t =
        String.mk (t.data.takeWhile (fun c => c != ':') ++
          ':' :: kebabL ((t.data.dropWhile (fun c => c != ':')).tail))) := by
  have hmap : ∀ ts : List String, normTagsGo ts = ts.map normTag := by
    intro ts
    induction ts with
    | nil => rfl
    | cons t ts ih => simp [normTagsGo, ih]
  refine ⟨hmap tags, ?_, by decide, ?_, ?_⟩
  · simp [normalize_tags, hmap]
  · intro t hcol
    simp [normTag, normTagL, kebab, hcol]
  · intro t hcol
    simp [normTag, normTagL, hcol]

/-- Witness for `normalize_tags_pointwise` on concrete tags. -/
theorem normalize_tags_pointwise_witness :
    normalize_tags (some ["Source:My Topic", ""]) =
      ["Source:My Topic", ""].map normTag ∧
    normTag "plain tag" = kebab "plain tag" ∧
    normTag "Source:My Topic" =
      String.mk ("Source:My Topic".data.takeWhile (fun c => c != ':') ++
        ':' :: kebabL (("Source:My Topic".data.dropWhile (fun c => c != ':')).tail)) :=
  ⟨(normalize_tags_pointwise ["Source:My Topic", ""]).1,
   (normalize_tags_pointwise []).2.2.2.1 "plain tag" (by decide),
   (normalize_tags_pointwise []).2.2.2.2 "Source:My Topic" (by decide)⟩

/-! ## Claims about download handlers and filenames (C7, C8) -/

/-- Claim C7 is false as stated: in `api/download.py`, an explicitly empty
deck name falls back to "Learning AI" for the build (and hence the deck
id), but the filename is formatted from the raw `bp.deck_name`, so it
comes out as ".apkg", not "Learning_AI.apkg". -/
theorem empty_name_filename_claim_false :
    (download_py (.str "")).build_name = "Learning AI" ∧
    (download_py (.str "")).filename = ".apkg" ∧
    (download_py (.str "")).filename ≠ "Learning_AI.apkg" := by
  refine ⟨by decide, by decide, by decide⟩

/-- Claim C7 (amended): an absent or empty deck name falls back to
"Learning AI" for the build (deck-id derivation) in both download handlers
and for the filename in the `api/index.py` handler; in the
`api/download.py` handler the filename only benefits from the pydantic
default on an absent field — an explicitly empty name yields ".apkg". -/
theorem learning_ai_fallback (f : JsonField)
    (hf : f = .absent ∨ f = .str "") :
    (download_py f).build_name = "Learning AI" ∧
    (index_download f).build_name = "Learning AI" ∧
    (index_download f).filename = "Learning_AI.apkg" ∧
    (f = .absent → (download_py f).filename = "Learning_AI.apkg") ∧
    (f = .str "" → (download_py f).filename = ".apkg") := by
  rcases hf with h | h <;> subst h <;>
    exact ⟨by decide, by decide, by decide, by decide, by decide⟩

/-- Witness for `learning_ai_fallback` at the explicitly empty name. -/
theorem learning_ai_fallback_witness :
    (download_py (.str "")).build_name = "Learning AI" ∧
    (index_download (.str "")).filename = "Learning_AI.apkg" :=
  ⟨(learning_ai_fallback (.str "") (Or.inr rfl)).1,
   (learning_ai_fallback (.str "") (Or.inr rfl)).2.2.1⟩

/-- Claim C8 is false as stated: the sanitizer replaces every maximal RUN
of disallowed characters by a single underscore, not each character by its
own underscore; on the name "a  b" (two spaces) the code produces
"a_b.apkg" while the claim's per-character description produces
"a__b.apkg". -/
theorem per_char_filename_claim_false :
    safeFilename "a  b" = "a_b.apkg" ∧
    perCharFilename "a  b" = "a__b.apkg" ∧
    safeFilename "a  b" ≠ perCharFilename "a  b" := by
  refine ⟨by decide, by decide, by decide⟩

theorem safeRun_append_safe_cons (m : List Char) (c : Char)
    (hc : isSafeChar c = true) :
    ∀ (l : List Char) (b : Bool),
      safeRun b (l ++ c :: m) = safeRun b l ++ c :: safeRun false m := by
  intro l
  induction l with
  | nil =>
    intro b
    simp [safeRun, hc]
  | cons x xs ih =>
    intro b
    by_cases hx : isSafeChar x = true
    · simp [safeRun, hx, ih]
    · cases b <;> simp [safeRun, hx, ih]

/-- Claim C8 (amended): the suggested filename is the deck name with every
maximal run of consecutive characters outside `[A-Za-z0-9._-]` replaced by
a single underscore, with ".apkg" appended; since the sanitizer is applied
to the name with ".apkg" already attached, its result always ends in
".apkg" and is never empty, so the "deck.apkg" fallback branch is
unreachable. -/
theorem safe_filename_collapses_runs (name : String) :
    safeFilename name = String.mk (subUnderscore name.data) ++ ".apkg" ∧
    safeFilename name ≠ "" := by
  have happ : subUnderscore (name.data ++ ".apkg".data) =
      subUnderscore name.data ++ ".apkg".data := by
    have h := safeRun_append_safe_cons "apkg".data '.' (by decide) name.data false
    simpa [subUnderscore] using h
  have hr : String.mk (subUnderscore (name ++ ".apkg").data) =
      String.mk (subUnderscore name.data) ++ ".apkg" := by
    have hdata : (name ++ ".apkg").data = name.data ++ ".apkg".data := by
      simp [String.data_append]
    rw [hdata, happ]
    rfl
  have hne : String.mk (subUnderscore name.data) ++ ".apkg" ≠ "" := by
    intro hcontra
    have : (String.mk (subUnderscore name.data) ++ ".apkg").data = [] := by
      rw [hcontra]
    simp [String.data_append] at this
  constructor
  · unfold safeFilename
    rw [hr, if_neg hne]
  · unfold safeFilename
    rw [hr, if_neg hne]
    exact hne

/-! ## Claims about the deck id (C3, C9) -/

theorem hexVal_lt_16 (c : Char) : hexVal c < 16 := by
  unfold hexVal
  split
  · omega
  · split <;> omega

theorem hexVal_hexNibble (n : Nat) (hn : n < 16) :
    hexVal (hexNibble n) = n := by
  interval_cases n <;> decide

theorem parseHex16_fold_hexPair (b : Nat) (hb : b < 256) (acc : Nat)
    (rest : List Char) :
    (hexPair b ++ rest).foldl (fun a c => 16 * a + hexVal c) acc =
      rest.foldl (fun a c => 16 * a + hexVal c) (256 * acc + b) := by
  simp only [hexPair, List.cons_append, List.nil_append, List.foldl_cons]
  rw [hexVal_hexNibble (b / 16) (by omega),
    hexVal_hexNibble (b % 16) (Nat.mod_lt _ (by norm_num))]
  congr 1
  omega

theorem parseHex16_flatten_hexPair (bs : List Nat)
    (hb : ∀ b ∈ bs, b < 256) (acc : Nat) :
    ((bs.map hexPair).flatten).foldl (fun a c => 16 * a + hexVal c) acc =
      bs.foldl (fun a b => 256 * a + b) acc := by
  induction bs generalizing acc with
  | nil => simp
  | cons b bs ih =>
    simp only [List.map_cons, List.flatten_cons, List.foldl_cons]
    rw [parseHex16_fold_hexPair b (hb b (by simp)) acc]
    exact ih (fun x hx => hb x (by simp [hx])) _

theorem take_flatten_hexPair (k : Nat) (bs : List Nat) :
    ((bs.map hexPair).flatten).take (2 * k) =
      ((bs.take k).map hexPair).flatten := by
  induction bs generalizing k with
  | nil => simp
  | cons b bs ih =>
    cases k with
    | zero => simp
    | succ k =>
      simp only [List.map_cons, List.flatten_cons, List.take_succ_cons,
        Nat.mul_succ]
      rw [show 2 * k + 2 = (2 * k + 1) + 1 from rfl]
      simp only [hexPair, List.cons_append, List.nil_append,
        List.take_succ_cons]
      rw [ih k]

theorem natBE_go (bs : List Nat) (acc : Nat) :
    bs.foldl (fun a b => 256 * a + b) acc =
      acc * 256 ^ bs.length + natBE bs := by
  induction bs generalizing acc with
  | nil => simp [natBE]
  | cons b bs ih =>
    simp only [List.foldl_cons, List.length_cons]
    rw [ih (256 * acc + b)]
    have hb : natBE (b :: bs) = b * 256 ^ bs.length + natBE bs := by
      simp only [natBE, List.foldl_cons]
      rw [show (256 * 0 + b) = b from by omega]
      have := ih b
      simp only [natBE] at this ⊢
      rw [this]
    rw [hb]
    ring

theorem natBE_lt (bs : List Nat) (hb : ∀ b ∈ bs, b < 256) :
    natBE bs < 256 ^ bs.length := by
  induction bs with
  | nil => simp [natBE]
  | cons b bs ih =>
    have hsplit : natBE (b :: bs) = b * 256 ^ bs.length + natBE bs := by
      simp only [natBE, List.foldl_cons]
      rw [show (256 * 0 + b) = b from by omega]
      exact natBE_go bs b
    rw [hsplit, List.length_cons, pow_succ]
    have h1 : b < 256 := hb b (by simp)
    have h2 : natBE bs < 256 ^ bs.length :=
      ih (fun x hx => hb x (by simp [hx]))
    calc b * 256 ^ bs.length + natBE bs
        < b * 256 ^ bs.length + 256 ^ bs.length := by omega
      _ = (b + 1) * 256 ^ bs.length := by ring
      _ ≤ 256 * 256 ^ bs.length := by
          exact Nat.mul_le_mul_right _ (by omega)
      _ = 256 ^ bs.length * 256 := by ring

theorem natBE_append (t d : List Nat) :
    natBE (t ++ d) = natBE t * 256 ^ d.length + natBE d := by
  simp only [natBE, List.foldl_append]
  exact natBE_go d (natBE t)

theorem natBE_take (bs : List Nat) (hb : ∀ b ∈ bs, b < 256) (k : Nat) :
    natBE (bs.take k) = natBE bs / 256 ^ (bs.length - k) := by
  have hsplit : natBE bs =
      natBE (bs.take k) * 256 ^ (bs.length - k) + natBE (bs.drop k) := by
    conv_lhs => rw [← List.take_append_drop k bs]
    rw [natBE_append, List.length_drop]
  have hd : natBE (bs.drop k) < 256 ^ (bs.length - k) := by
    have h := natBE_lt (bs.drop k) (fun x hx => hb x (List.mem_of_mem_drop hx))
    rwa [List.length_drop] at h
  rw [hsplit, mul_comm, Nat.mul_add_div (Nat.pow_pos (by norm_num)),
    Nat.div_eq_of_lt hd]
  omega

theorem wordBytes_lt (w : Nat) : ∀ b ∈ wordBytes w, b < 256 := by
  intro b hb
  simp only [wordBytes, List.mem_cons, List.not_mem_nil, or_false] at hb
  rcases hb with h | h | h | h <;> subst h <;> exact Nat.mod_lt _ (by norm_num)

theorem digestBytes_lt (s : Hash8) : ∀ b ∈ digestBytes s, b < 256 := by
  intro b hb
  simp only [digestBytes, List.mem_append] at hb
  rcases hb with ((((((h | h) | h) | h) | h) | h) | h) | h <;>
    exact wordBytes_lt _ b h

theorem sha256_byte_lt (msg : List Nat) : ∀ b ∈ sha256 msg, b < 256 :=
  fun b hb => digestBytes_lt _ b hb

theorem sha256_length (msg : List Nat) : (sha256 msg).length = 32 := by
  simp [sha256, digestBytes, wordBytes]

/-- Claim C3: the deck id derived by `build_apkg_bytes` equals the base-16
value of the first 12 hex characters of the SHA-256 hex digest of the
UTF-8 encoded deck name — equivalently, the top six digest bytes read as a
big-endian integer — and it is a pure function of the name alone: it does
not depend on the cards. -/
theorem deck_id_formula (name : String) (cards cards' : List Card) :
    (build_apkg_bytes name cards).deck_id =
      parseHex16 ((sha256Hex (utf8Encode name)).take 12) ∧
    (build_apkg_bytes name cards).deck_id =
      natBE (sha256 (utf8Encode name)) / 2 ^ 208 ∧
    (build_apkg_bytes name cards).deck_id =
      (build_apkg_bytes name cards').deck_id := by
  refine ⟨rfl, ?_, rfl⟩
  show parseHex16 ((sha256Hex (utf8Encode name)).take 12) = _
  have hbytes := sha256_byte_lt (utf8Encode name)
  have htk : ∀ b ∈ (sha256 (utf8Encode name)).take 6, b < 256 :=
    fun b hb => hbytes b (List.mem_of_mem_take hb)
  unfold sha256Hex parseHex16
  rw [show (12 : Nat) = 2 * 6 from rfl, take_flatten_hexPair]
  rw [parseHex16_flatten_hexPair _ htk 0]
  show natBE ((sha256 (utf8Encode name)).take 6) = _
  rw [natBE_take _ hbytes 6, sha256_length]
  norm_num

set_option maxRecDepth 40000 in
/-- Claim C9 is false as stated: no masking to 32 bits happens anywhere —
for the deck name "a" the stored id is the raw 48-bit value
222752054364699, which is not below `2 ^ 32`. -/
theorem deck_id_not_masked_claim_false :
    (build_apkg_bytes "a" []).deck_id = 222752054364699 ∧
    ¬ (build_apkg_bytes "a" []).deck_id < 2 ^ 32 := by
  refine ⟨by decide, by decide⟩

theorem parseHex16_fold_lt (l : List Char) (acc : Nat) :
    l.foldl (fun a c => 16 * a + hexVal c) acc < (acc + 1) * 16 ^ l.length := by
  induction l generalizing acc with
  | nil => simp
  | cons c cs ih =>
    simp only [List.foldl_cons, List.length_cons]
    have h1 := ih (16 * acc + hexVal c)
    have h2 : hexVal c < 16 := hexVal_lt_16 c
    calc cs.foldl (fun a c => 16 * a + hexVal c) (16 * acc + hexVal c)
        < (16 * acc + hexVal c + 1) * 16 ^ cs.length := h1
      _ ≤ (16 * (acc + 1)) * 16 ^ cs.length := by
          exact Nat.mul_le_mul_right _ (by omega)
      _ = (acc + 1) * 16 ^ (cs.length + 1) := by ring

/-- Claim C9 (amended): the raw 12-hex-character value is used directly,
without any modulo or bitmask reduction; it is bounded only by the
12-hex-digit range, i.e. the deck id is always below `2 ^ 48` (but may
exceed `2 ^ 32`). -/
theorem deck_id_lt_pow48 (name : String) (cards : List Card) :
    (build_apkg_bytes name cards).deck_id < 2 ^ 48 := by
  show parseHex16 ((sha256Hex (utf8Encode name)).take 12) < 2 ^ 48
  have h := parseHex16_fold_lt ((sha256Hex (utf8Encode name)).take 12) 0
  have hlen : ((sha256Hex (utf8Encode name)).take 12).length ≤ 12 := by
    simpa using List.length_take_le 12 _
  calc parseHex16 ((sha256Hex (utf8Encode name)).take 12)
      < 1 * 16 ^ ((sha256Hex (utf8Encode name)).take 12).length := h
    _ ≤ 1 * 16 ^ 12 := by
        exact Nat.mul_le_mul_left _ (Nat.pow_le_pow_right (by norm_num) hlen)
    _ = 2 ^ 48 := by norm_num

/-! ## Idempotence of tag normalization (C6) -/

/-- Adjacent-character invariant of kebab output: no two consecutive
characters are both outside `[a-z0-9]` (in particular, no two consecutive
hyphens). -/
def noDoubleHyphen : List Char → Bool
  | [] => true
  | [_] => true
  | a :: b :: rest => (isKebabChar a || isKebabChar b) && noDoubleHyphen (b :: rest)

theorem ndh_tail {a : Char} {l : List Char}
    (h : noDoubleHyphen (a :: l) = true) : noDoubleHyphen l = true := by
  cases l with
  | nil => rfl
  | cons b bs =>
    simp only [noDoubleHyphen, Bool.and_eq_true] at h
    exact h.2

theorem ndh_cons {a : Char} {l : List Char}
    (hhead : ∀ d, l.head? = some d → (isKebabChar a || isKebabChar d) = true)
    (hl : noDoubleHyphen l = true) : noDoubleHyphen (a :: l) = true := by
  cases l with
  | nil => rfl
  | cons b bs =>
    simp only [noDoubleHyphen, Bool.and_eq_true]
    exact ⟨hhead b rfl, hl⟩

theorem subRun_mem (l : List Char) :
    ∀ (b : Bool), ∀ c ∈ subRun b l, isKebabChar c = true ∨ c = '-' := by
  induction l with
  | nil => intro b c hc; simp [subRun] at hc
  | cons x xs ih =>
    intro b c hc
    by_cases hx : isKebabChar x = true
    · simp only [subRun, hx, if_pos] at hc
      rcases List.mem_cons.mp hc with h | h
      · subst h; exact Or.inl hx
      · exact ih false c h
    · simp only [subRun, hx, if_neg, Bool.false_eq_true] at hc
      cases b with
      | true => exact ih true c (by simpa using hc)
      | false =>
        rcases List.mem_cons.mp (by simpa using hc) with h | h
        · subst h; exact Or.inr rfl
        · exact ih true c h

theorem subRun_true_head (l : List Char) :
    ∀ d, (subRun true l).head? = some d → isKebabChar d = true := by
  induction l with
  | nil => intro d hd; simp [subRun] at hd
  | cons x xs ih =>
    intro d hd
    by_cases hx : isKebabChar x = true
    · simp only [subRun, hx, if_pos, List.head?_cons, Option.some.injEq] at hd
      subst hd; exact hx
    · simp only [subRun, hx, Bool.false_eq_true, if_neg, if_true] at hd
      exact ih d hd

theorem subRun_ndh (l : List Char) :
    ∀ b : Bool, noDoubleHyphen (subRun b l) = true := by
  induction l with
  | nil => intro b; rfl
  | cons x xs ih =>
    intro b
    by_cases hx : isKebabChar x = true
    · simp only [subRun, hx, if_pos]
      exact ndh_cons (fun d _ => by simp [hx]) (ih false)
    · simp only [subRun, hx, Bool.false_eq_true, if_neg]
      cases b with
      | true => simpa using ih true
      | false =>
        simp only [if_neg, Bool.false_eq_true, if_true]
        refine ndh_cons (fun d hd => ?_) (ih true)
        simp [subRun_true_head xs d hd]

theorem ndh_dropWhile (p : Char → Bool) (l : List Char)
    (h : noDoubleHyphen l = true) : noDoubleHyphen (l.dropWhile p) = true := by
  induction l with
  | nil => exact h
  | cons x xs ih =>
    rw [List.dropWhile_cons]
    by_cases hx : p x = true
    · simp only [hx, if_pos]
      exact ih (ndh_tail h)
    · simp only [hx, Bool.false_eq_true, if_neg]
      exact h

theorem dth_nil_or_cons (c : Char) (cs : List Char) :
    dropTrailingHyphens (c :: cs) = [] ∨
      dropTrailingHyphens (c :: cs) = c :: dropTrailingHyphens cs := by
  cases hcs : dropTrailingHyphens cs with
  | nil =>
    by_cases hc : (c == '-') = true
    · left
      simp [dropTrailingHyphens, hcs, hc]
    · right
      simp [dropTrailingHyphens, hcs, hc]
  | cons d ds =>
    right
    simp [dropTrailingHyphens, hcs]

theorem dth_subset (l : List Char) :
    ∀ c ∈ dropTrailingHyphens l, c ∈ l := by
  induction l with
  | nil => intro c hc; exact absurd hc (by simp [dropTrailingHyphens])
  | cons x xs ih =>
    intro c hc
    rcases dth_nil_or_cons x xs with h | h
    · rw [h] at hc; simp at hc
    · rw [h] at hc
      rcases List.mem_cons.mp hc with h1 | h1
      · simp [h1]
      · exact List.mem_cons_of_mem _ (ih c h1)

theorem dth_head (l : List Char) (d : Char) (ds : List Char)
    (h : dropTrailingHyphens l = d :: ds) : l.head? = some d := by
  cases l with
  | nil => exact absurd h (by simp [dropTrailingHyphens])
  | cons x xs =>
    rcases dth_nil_or_cons x xs with h1 | h1
    · rw [h1] at h
      exact absurd h (by simp)
    · rw [h1] at h
      have hx : x = d := (List.cons.inj h).1
      simp [hx]

theorem dth_ndh (l : List Char) (h : noDoubleHyphen l = true) :
    noDoubleHyphen (dropTrailingHyphens l) = true := by
  induction l with
  | nil => exact h
  | cons x xs ih =>
    rcases dth_nil_or_cons x xs with h1 | h1
    · rw [h1]; rfl
    · rw [h1]
      refine ndh_cons (fun d hd => ?_) (ih (ndh_tail h))
      cases hxs : dropTrailingHyphens xs with
      | nil =>
        rw [hxs] at hd
        exact absurd hd (by simp)
      | cons e es =>
        rw [hxs] at hd
        have hde : e = d := by simpa using hd
        have hhead : xs.head? = some e := dth_head xs e es hxs
        cases xs with
        | nil => exact absurd hhead (by simp)
        | cons y ys =>
          have hy : y = e := by simpa using hhead
          subst hde
          subst hy
          simp only [noDoubleHyphen, Bool.and_eq_true] at h
          exact h.1

theorem dth_getLast_ne (l : List Char) :
    ∀ c, (dropTrailingHyphens l).getLast? = some c → c ≠ '-' := by
  induction l with
  | nil => intro c hc; exact absurd hc (by simp [dropTrailingHyphens])
  | cons x xs ih =>
    intro c hc
    cases hxs : dropTrailingHyphens xs with
    | nil =>
      by_cases hx : (x == '-') = true
      · have : dropTrailingHyphens (x :: xs) = [] := by
          simp [dropTrailingHyphens, hxs, hx]
        rw [this] at hc
        exact absurd hc (by simp)
      · have : dropTrailingHyphens (x :: xs) = [x] := by
          simp [dropTrailingHyphens, hxs, hx]
        rw [this] at hc
        have hxc : x = c := by simpa using hc
        subst hxc
        simpa using hx
    | cons d ds =>
      have : dropTrailingHyphens (x :: xs) = x :: d :: ds := by
        simp [dropTrailingHyphens, hxs]
      rw [this] at hc
      rw [List.getLast?_cons_cons] at hc
      rw [← hxs] at hc
      exact ih c hc

theorem dth_fixed (l : List Char)
    (h : ∀ c, l.getLast? = some c → c ≠ '-') :
    dropTrailingHyphens l = l := by
  induction l with
  | nil => rfl
  | cons x xs ih =>
    cases xs with
    | nil =>
      have hx : x ≠ '-' := h x (by simp)
      simp [dropTrailingHyphens, hx]
    | cons y ys =>
      have hxs : dropTrailingHyphens (y :: ys) = y :: ys := by
        refine ih fun c hc => h c ?_
        rw [List.getLast?_cons_cons]
        exact hc
      rw [show dropTrailingHyphens (x :: y :: ys) =
          (match dropTrailingHyphens (y :: ys) with
           | [] => if x == '-' then [] else [x]
           | d :: ds => x :: d :: ds) from rfl]
      rw [hxs]

theorem dropWhile_head_not (p : Char → Bool) (l : List Char) :
    ∀ d, (l.dropWhile p).head? = some d → p d = false := by
  induction l with
  | nil => intro d hd; exact absurd hd (by simp)
  | cons x xs ih =>
    intro d hd
    rw [List.dropWhile_cons] at hd
    by_cases hx : p x = true
    · rw [if_pos hx] at hd
      exact ih d hd
    · rw [if_neg hx] at hd
      have hxd : x = d := by simpa using hd
      subst hxd
      simpa using hx

theorem dropWhile_fixed (p : Char → Bool) (l : List Char)
    (h : ∀ d, l.head? = some d → p d = false) : l.dropWhile p = l := by
  cases l with
  | nil => rfl
  | cons x xs =>
    rw [List.dropWhile_cons, if_neg]
    rw [h x rfl]
    simp

theorem mem_dropWhile_sub (p : Char → Bool) (l : List Char) :
    ∀ c ∈ l.dropWhile p, c ∈ l := by
  induction l with
  | nil => simp
  | cons x xs ih =>
    intro c hc
    rw [List.dropWhile_cons] at hc
    by_cases hx : p x = true
    · rw [if_pos hx] at hc
      exact List.mem_cons_of_mem _ (ih c hc)
    · rw [if_neg hx] at hc
      exact hc

theorem kebabL_mem (l : List Char) :
    ∀ c ∈ kebabL l, isKebabChar c = true ∨ c = '-' := by
  intro c hc
  have h1 : c ∈ subRun false (l.map Char.toLower) := by
    have h2 := dth_subset _ c hc
    exact mem_dropWhile_sub _ _ c h2
  exact subRun_mem _ false c h1

theorem kebabL_ndh (l : List Char) : noDoubleHyphen (kebabL l) = true :=
  dth_ndh _ (ndh_dropWhile _ _ (subRun_ndh _ false))

theorem kebabL_head (l : List Char) :
    ∀ d, (kebabL l).head? = some d → isKebabChar d = true := by
  intro d hd
  unfold kebabL stripHyphens subHyphen at hd
  cases hX : dropTrailingHyphens
      ((subRun false (l.map Char.toLower)).dropWhile (fun c => c == '-')) with
  | nil =>
    rw [hX] at hd
    exact absurd hd (by simp)
  | cons e es =>
    rw [hX] at hd
    have hed : e = d := by simpa using hd
    subst hed
    have hh := dth_head _ e es hX
    have hp := dropWhile_head_not (fun c => c == '-')
      (subRun false (l.map Char.toLower)) e hh
    have hmem : e ∈ (subRun false (l.map Char.toLower)).dropWhile
        (fun c => c == '-') := by
      cases hY : (subRun false (l.map Char.toLower)).dropWhile
          (fun c => c == '-') with
      | nil =>
        rw [hY] at hh
        exact absurd hh (by simp)
      | cons f fs =>
        rw [hY] at hh
        have hfe : f = e := by simpa using hh
        subst hfe
        simp
    rcases subRun_mem (l.map Char.toLower) false e
        (mem_dropWhile_sub _ _ e hmem) with h | h
    · exact h
    · subst h
      simpa using hp

theorem kebabL_last (l : List Char) :
    ∀ c, (kebabL l).getLast? = some c → c ≠ '-' := by
  intro c hc
  unfold kebabL stripHyphens subHyphen at hc
  exact dth_getLast_ne _ c hc

theorem toLower_fixed (c : Char) (hc : isKebabChar c = true ∨ c = '-') :
    Char.toLower c = c := by
  rcases hc with h | h
  · simp only [isKebabChar, Bool.or_eq_true, Bool.and_eq_true,
      decide_eq_true_eq] at h
    show (if c.toNat ≥ 65 ∧ c.toNat ≤ 90 then Char.ofNat (c.toNat + 32)
          else c) = c
    rw [if_neg (by omega)]
  · subst h
    decide

theorem map_toLower_fixed (l : List Char)
    (h : ∀ c ∈ l, isKebabChar c = true ∨ c = '-') :
    l.map Char.toLower = l := by
  induction l with
  | nil => rfl
  | cons x xs ih =>
    simp only [List.map_cons]
    rw [toLower_fixed x (h x (by simp)), ih (fun c hc => h c (by simp [hc]))]

theorem subRun_false_fixed (l : List Char)
    (hmem : ∀ c ∈ l, isKebabChar c = true ∨ c = '-')
    (hndh : noDoubleHyphen l = true) : subRun false l = l := by
  induction l with
  | nil => rfl
  | cons x xs ih =>
    by_cases hx : isKebabChar x = true
    · rw [show subRun false (x :: xs) =
          (if isKebabChar x then x :: subRun false xs
           else '-' :: subRun true xs) from rfl]
      rw [if_pos hx, ih (fun c hc => hmem c (by simp [hc])) (ndh_tail hndh)]
    · have hxh : x = '-' := by
        rcases hmem x (by simp) with h | h
        · exact absurd h hx
        · exact h
      subst hxh
      have hxs : subRun true xs = xs := by
        cases xs with
        | nil => rfl
        | cons y ys =>
          have hy : isKebabChar y = true := by
            simp only [noDoubleHyphen, Bool.and_eq_true, Bool.or_eq_true] at hndh
            rcases hndh.1 with h | h
            · exact absurd h (by decide)
            · exact h
          have hfix : subRun false (y :: ys) = y :: ys :=
            ih (fun c hc => hmem c (by simp [hc])) (ndh_tail hndh)
          calc subRun true (y :: ys) = y :: subRun false ys := by
                rw [show subRun true (y :: ys) =
                    (if isKebabChar y then y :: subRun false ys
                     else subRun true ys) from rfl, if_pos hy]
            _ = subRun false (y :: ys) := by
                rw [show subRun false (y :: ys) =
                    (if isKebabChar y then y :: subRun false ys
                     else '-' :: subRun true ys) from rfl, if_pos hy]
            _ = y :: ys := hfix
      rw [show subRun false ('-' :: xs) = '-' :: subRun true xs from rfl, hxs]

theorem kebabL_fixed (l : List Char) : kebabL (kebabL l) = kebabL l := by
  have hmem := kebabL_mem l
  have hndh := kebabL_ndh l
  show stripHyphens (subHyphen ((kebabL l).map Char.toLower)) = kebabL l
  rw [map_toLower_fixed _ hmem]
  show stripHyphens (subRun false (kebabL l)) = kebabL l
  rw [subRun_false_fixed _ hmem hndh]
  show dropTrailingHyphens ((kebabL l).dropWhile (fun c => c == '-')) = kebabL l
  have hdw : (kebabL l).dropWhile (fun c => c == '-') = kebabL l := by
    refine dropWhile_fixed _ _ (fun d hd => ?_)
    have hk := kebabL_head l d hd
    have hne : d ≠ '-' := by
      intro hh
      rw [hh] at hk
      exact absurd hk (by decide)
    simpa using hne
  rw [hdw]
  exact dth_fixed _ (kebabL_last l)

theorem kebabL_no_colon (l : List Char) :
    (kebabL l).any (fun c => c == ':') = false := by
  rw [List.any_eq_false]
  intro c hc
  rcases kebabL_mem l c hc with h | h
  · intro hcolon
    have hcc : c = ':' := by simpa using hcolon
    subst hcc
    exact absurd h (by decide)
  · subst h
    decide

theorem splitColon_append (k m : List Char)
    (hk : ∀ c ∈ k, (c == ':') = false) :
    (k ++ ':' :: m).takeWhile (fun c => c != ':') = k ∧
    ((k ++ ':' :: m).dropWhile (fun c => c != ':')).tail = m := by
  induction k with
  | nil =>
    constructor
    · rw [List.nil_append, List.takeWhile_cons, if_neg (by decide)]
    · rw [List.nil_append, List.dropWhile_cons, if_neg (by decide)]
      rfl
  | cons x xs ih =>
    have hx : (x == ':') = false := hk x (by simp)
    obtain ⟨ih1, ih2⟩ := ih (fun c hc => hk c (by simp [hc]))
    have hbx : (x != ':') = true := by simp [bne, hx]
    constructor
    · rw [List.cons_append, List.takeWhile_cons, if_pos hbx, ih1]
    · rw [List.cons_append, List.dropWhile_cons, if_pos hbx]
      exact ih2

theorem normTagL_idem (l : List Char) : normTagL (normTagL l) = normTagL l := by
  by_cases hcol : l.any (fun c => c == ':') = true
  · have hk : ∀ c ∈ l.takeWhile (fun c => c != ':'), (c == ':') = false := by
      intro c hc
      have h := List.mem_takeWhile_imp hc
      simpa [bne] using h
    have h1 : normTagL l =
        l.takeWhile (fun c => c != ':') ++
          ':' :: kebabL ((l.dropWhile (fun c => c != ':')).tail) := by
      simp only [normTagL, hcol, if_pos]
    obtain ⟨htw, hdw⟩ :=
      splitColon_append (l.takeWhile (fun c => c != ':'))
        (kebabL ((l.dropWhile (fun c => c != ':')).tail)) hk
    have hany : (l.takeWhile (fun c => c != ':') ++
        ':' :: kebabL ((l.dropWhile (fun c => c != ':')).tail)).any
          (fun c => c == ':') = true := by
      simp [List.any_append]
    rw [h1]
    simp only [normTagL, hany, if_pos, htw, hdw]
    rw [kebabL_fixed]
  · have hcol' : l.any (fun c => c == ':') = false := by
      cases hh : l.any (fun c => c == ':') with
      | false => rfl
      | true => exact absurd hh hcol
    have h1 : normTagL l = kebabL l := by
      simp only [normTagL, hcol', Bool.false_eq_true, if_false]
    rw [h1]
    have h2 : normTagL (kebabL l) = kebabL (kebabL l) := by
      simp only [normTagL, kebabL_no_colon l, Bool.false_eq_true, if_false]
    rw [h2, kebabL_fixed]

/-- Claim C6: tag normalization is idempotent: for every tag string,
normalizing the normalized form yields the normalized form. -/
theorem normTag_idempotent (t : String) : normTag (normTag t) = normTag t := by
  show String.mk (normTagL (String.mk (normTagL t.data)).data) =
    String.mk (normTagL t.data)
  exact congrArg String.mk (normTagL_idem t.data)
